import Mathlib

/-
A shallow embedding of `src/map.go` (package rwmap): a concurrent map
built from a stable ("big") table and a hot ("little") table of shared,
atomically updated entries, plus a merge heuristic.

Modelling conventions:
* Keys and values are `Nat` (Go `any` keys/values are only compared for
  equality).  A Go `nil` value is `Option.none`; the atomic slot of a
  `mapEntry` holds an `Option V`, with `none` for the empty slot,
  matching the code's convention that `v.Load() == nil` means "no value".
* `mapEntry` objects are heap cells shared by reference between the two
  tables; the heap is `slots : List (Option V)` indexed by entry id, and
  both tables are association lists from key to entry id.  `new(mapEntry)`
  followed by `v.Store(value)` appends a fresh slot.
* A Go map that may be `nil` is an `Option (AList EntryId)`.  Reading a
  `nil` map yields "not found" (so reads go through `Option.getD []`),
  but assigning into a `nil` map is a run-time panic.
* Go's `sync/atomic.Value` rejects nil: `Store(nil)`, `Swap(nil)` and
  `CompareAndSwap(old, nil)` all panic unconditionally.  Hence
  `mapEntry.Delete` (line 40), `mapEntry.LoadAndDelete` (line 35) and
  `mapEntry.CompareAndDelete` (line 31) panic whenever they run —
  modelled by `entryDelete`, `entryLAD` and `entryCAD` below — and
  storing a nil value into an entry panics too (guarded explicitly in
  `losLittle`, whose `value` can be nil; `Store`'s writes are kept
  total, which matches the program for the non-nil values this
  development stores through them).
* Every operation whose source can reach a panic of either kind returns
  an `Option`, with `none` modelling the panic.
* The model is sequential: each operation runs alone, so `checkMerge`'s
  `TryLock` succeeds whenever attempted, and every lock acquisition in
  the source is a no-op here.
* `littleReads` is an `atomic.Uintptr`; its increment wraps modulo 2^64.
-/

namespace Rwmap

abbrev K := Nat
abbrev V := Nat
abbrev EntryId := Nat

/-- Association lists model Go maps (`map[any]*mapEntry` for the two
tables, `map[any]any` for the snapshot built by `Range`). -/
abbrev AList (β : Type) := List (K × β)

/-- Go map read `v, ok := m[k]`: the first (unique) binding of `k`. -/
def alookup {β : Type} : AList β → K → Option β
  | [], _ => none
  | p :: rest, k => if p.1 = k then some p.2 else alookup rest k

/-- Go map `delete(m, k)`. -/
def aerase {β : Type} : AList β → K → AList β
  | [], _ => []
  | p :: rest, k => if p.1 = k then aerase rest k else p :: aerase rest k

/-- Go map assignment `m[k] = v`: at most one binding per key. -/
def ainsert {β : Type} (l : AList β) (k : K) (v : β) : AList β :=
  aerase l k ++ [(k, v)]

def akeys {β : Type} (l : AList β) : List K := l.map Prod.fst

/-! ### The entry heap

A `mapEntry` is a single atomic slot; entries are shared by reference
between the tables, so the model keeps them in a heap indexed by
`EntryId`.  Reading outside the heap yields `none` (never happens for
ids actually stored in a table). -/

def entryLoad : List (Option V) → EntryId → Option V
  | [], _ => none
  | o :: _, 0 => o
  | _ :: rest, n + 1 => entryLoad rest n

def entryStore : List (Option V) → EntryId → Option V → List (Option V)
  | [], _, _ => []
  | _ :: rest, 0, w => w :: rest
  | o :: rest, n + 1, w => o :: entryStore rest n w

/-- `v := new(mapEntry); v.Store(o)`: append a fresh slot, returning its id. -/
def alloc (slots : List (Option V)) (o : Option V) : List (Option V) × EntryId :=
  (slots ++ [o], slots.length)

/-! ### The container state -/

structure RWMap where
  bigMap : Option (AList EntryId)
  littleMap : Option (AList EntryId)
  slots : List (Option V)
  littleReads : Nat
  shouldMerge : Bool
deriving DecidableEq, Repr

/-- The zero value `&RWMap{}`: both tables nil, counters zero. -/
def initMap : RWMap := ⟨none, none, [], 0, false⟩

/-- Stable-table read `v, ok := m.bigMap[key]`; reading a `nil` Go map
misses, so the `m.bigMap != nil` guards around reads fold into the
lookup. -/
def bigId (m : RWMap) (k : K) : Option EntryId := alookup (m.bigMap.getD []) k

def littleId (m : RWMap) (k : K) : Option EntryId := alookup (m.littleMap.getD []) k

/-- The value held by the stable table's entry for `k`, if populated. -/
def bigVal (m : RWMap) (k : K) : Option V :=
  match bigId m k with
  | some id => entryLoad m.slots id
  | none => none

def littleVal (m : RWMap) (k : K) : Option V :=
  match littleId m k with
  | some id => entryLoad m.slots id
  | none => none

/-- The externally observable value of key `k`: the stable entry's value
if populated, else the hot entry's value if populated (this is the order
`Load` consults the tables in). -/
def logicalLoad (m : RWMap) (k : K) : Option V :=
  match bigVal m k with
  | some v => some v
  | none => littleVal m k

def littleSize (m : RWMap) : Nat := (m.littleMap.getD []).length

/-! ### Merge coordinator (`merge`, `checkMerge`, `forceMerge`, `scoreMiss`) -/

/-- `scoreMiss` (src/map.go lines 104-113): if the hot table is
non-empty, bump the miss counter and raise the ready flag when the hot
size or the counter reaches 64. -/
def scoreMiss (m : RWMap) : RWMap :=
  if 0 < littleSize m then
    if 64 ≤ littleSize m ∨ 64 ≤ (m.littleReads + 1) % 2 ^ 64 then
      { m with littleReads := (m.littleReads + 1) % 2 ^ 64, shouldMerge := true }
    else { m with littleReads := (m.littleReads + 1) % 2 ^ 64 }
  else m

/-- One iteration of `merge`'s loop over the hot table (lines 72-81): a
hot entry whose slot is empty evicts the key from the stable table when
the stable entry is also empty; a populated hot entry is installed as
the stable entry. -/
def mergeStep (slots : List (Option V)) (big : AList EntryId) (p : K × EntryId) :
    AList EntryId :=
  if entryLoad slots p.2 = none then
    match alookup big p.1 with
    | some oid => if entryLoad slots oid = none then aerase big p.1 else big
    | none => big
  else ainsert big p.1 p.2

/-- `merge` (lines 65-86), caller holds the big lock exclusively: fold
the hot table into the stable table (creating the stable table if nil),
then drop the hot table and reset the counter and the flag. -/
def merge (m : RWMap) : RWMap :=
  let m1 :=
    match m.littleMap with
    | some lm =>
      if 0 < lm.length then
        { m with bigMap := some (lm.foldl (mergeStep m.slots) (m.bigMap.getD [])) }
      else m
    | none => m
  { m1 with littleMap := none, littleReads := 0, shouldMerge := false }

/-- `checkMerge` (lines 95-102): sequentially, `TryLock` succeeds, so a
set flag always triggers a merge. -/
def checkMerge (m : RWMap) : RWMap :=
  if m.shouldMerge then merge m else m

/-- `forceMerge` (lines 88-93): blocking lock acquisition, then merge. -/
def forceMerge (m : RWMap) : RWMap := merge m

/-! ### Public operations (the container façade)

Each operation is split as in the source: the part of the body that
runs after the fall-through to the hot table is a separate `…Little`
definition, and the public operation is `checkMerge` followed by the
stable-table phase.  Operations that can reach a Go panic (assignment
into a nil `littleMap`) return an `Option`, with `none` for the panic. -/

/-- `Load` little section (lines 131-147).  Note `scoreMiss` runs only
on a populated hot hit. -/
def loadLittle (m : RWMap) (key : K) : RWMap × Option V × Bool :=
  match m.littleMap with
  | none => (m, none, false)
  | some lm =>
    match alookup lm key with
    | some id =>
      match entryLoad m.slots id with
      | some v => (scoreMiss m, some v, true)
      | none => (m, none, false)
    | none => (m, none, false)

/-- `Load` body under the big read lock (lines 118-147). -/
def loadBody (m : RWMap) (key : K) : RWMap × Option V × Bool :=
  match bigId m key with
  | some id =>
    match entryLoad m.slots id with
    | some v => (m, some v, true)
    | none => loadLittle m key
  | none => loadLittle m key

/-- `Load` (lines 115-148). -/
def Load (m0 : RWMap) (key : K) : RWMap × Option V × Bool :=
  loadBody (checkMerge m0) key

/-- `Store` creation tail (lines 182-185): `v := new(mapEntry);
v.Store(value); m.littleMap[key] = v; m.scoreMiss()`. -/
def storeCreate (m : RWMap) (key : K) (value : Option V) : RWMap :=
  scoreMiss { m with
    slots := (alloc m.slots value).1,
    littleMap := some (ainsert (m.littleMap.getD []) key (alloc m.slots value).2) }

/-- `Store` little section (lines 166-186): in-place overwrite of a
populated hot entry, else create a fresh entry (the hot table is made
non-nil first, which `Option.getD []` captures together with the
creation). -/
def storeLittle (m : RWMap) (key : K) (value : Option V) : RWMap :=
  match alookup (m.littleMap.getD []) key with
  | some id =>
    match entryLoad m.slots id with
    | some _ => scoreMiss { m with slots := entryStore m.slots id value }
    | none => storeCreate m key value
  | none => storeCreate m key value

/-- `Store` body under the big read lock (lines 153-186): in-place
overwrite of a populated stable entry, else fall through to the hot
table. -/
def storeBody (m : RWMap) (key : K) (value : Option V) : RWMap :=
  match bigId m key with
  | some id =>
    match entryLoad m.slots id with
    | some _ => { m with slots := entryStore m.slots id value }
    | none => storeLittle m key value
  | none => storeLittle m key value

/-- `Store` (lines 150-186). -/
def Store (m0 : RWMap) (key : K) (value : Option V) : RWMap :=
  storeBody (checkMerge m0) key value

/-- `mapEntry.Delete` (lines 39-41) is `b.v.Store(nil)`, and
`atomic.Value.Store` panics on a nil value, so this call always
panics. -/
def entryDelete (_slots : List (Option V)) (_id : EntryId) :
    Option (List (Option V)) :=
  none

/-- `deleteBig` (lines 188-196): `value.Delete()` (line 191) always
panics, so the hot-table registration below it — itself a panic when
the hot table is nil (line 192) — is never reached. -/
def deleteBig (m : RWMap) (key : K) (id : EntryId) : Option RWMap :=
  match entryDelete m.slots id with
  | none => none
  | some slots =>
    match m.littleMap with
    | none => none
    | some lm =>
      some (scoreMiss { m with slots := slots, littleMap := some (ainsert lm key id) })

/-- `Delete` little section (lines 239-249): a populated hot hit runs
`scoreMiss` and then `v.Delete()` (line 246), which always panics; a
miss or empty entry falls through unchanged. -/
def deleteLittle (m : RWMap) (key : K) : Option RWMap :=
  match littleId m key with
  | some id =>
    match entryLoad m.slots id with
    | some _ =>
      match entryDelete (scoreMiss m).slots id with
      | none => none
      | some slots => some { scoreMiss m with slots := slots }
    | none => some m
  | none => some m

/-- `Delete` body under the big read lock (lines 229-249).  After
`deleteBig` the source falls through to the little section. -/
def deleteBody (m : RWMap) (key : K) : Option RWMap :=
  match bigId m key with
  | some id =>
    match entryLoad m.slots id with
    | some _ =>
      match deleteBig m key id with
      | none => none
      | some m' => deleteLittle m' key
    | none => deleteLittle m key
  | none => deleteLittle m key

/-- `Delete` (lines 226-250). -/
def Delete (m0 : RWMap) (key : K) : Option RWMap :=
  deleteBody (checkMerge m0) key

/-- `Swap` creation tail (lines 298-304): if the new value is non-nil,
store it in a fresh hot entry; either way report `(value, false)`. -/
def swapCreate (m : RWMap) (key : K) (value : Option V) : RWMap × Option V × Bool :=
  if value = none then (m, value, false)
  else
    let (slots, nid) := alloc m.slots value
    (scoreMiss { m with slots := slots,
                        littleMap := some (ainsert (m.littleMap.getD []) key nid) },
     value, false)

/-- `Swap` little section (lines 275-305), entered under the little
write lock: the hot table is made non-nil, a populated hot entry is
swapped in place when the new value is non-nil — a nil new value runs
`v.Delete()` (line 286), which always panics — otherwise fall to the
creation tail. -/
def swapLittle (m0 : RWMap) (key : K) (value : Option V) :
    Option (RWMap × Option V × Bool) :=
  let m := { m0 with littleMap := some (m0.littleMap.getD []) }
  match littleId m key with
  | some id =>
    match entryLoad m.slots id with
    | some old =>
      if value = none then
        match entryDelete m.slots id with
        | none => none
        | some slots =>
          match deleteBig { m with slots := slots } key id with
          | none => none
          | some m2 => some (m2, some old, true)
      else some (scoreMiss { m with slots := entryStore m.slots id value }, some old, true)
    | none => some (swapCreate m key value)
  | none => some (swapCreate m key value)

/-- `Swap` body under the big read lock (lines 255-305): a populated
stable entry is swapped in place when the new value is non-nil — a nil
new value runs `v.Delete()` (line 264), which always panics — else fall
through to the hot table. -/
def swapBody (m : RWMap) (key : K) (value : Option V) :
    Option (RWMap × Option V × Bool) :=
  match bigId m key with
  | some id =>
    match entryLoad m.slots id with
    | some old =>
      if value = none then
        match entryDelete m.slots id with
        | none => none
        | some slots =>
          match deleteBig { m with slots := slots } key id with
          | none => none
          | some m2 => some (m2, some old, true)
      else some ({ m with slots := entryStore m.slots id value }, some old, true)
    | none => swapLittle m key value
  | none => swapLittle m key value

/-- `Swap` (lines 252-305). -/
def Swap (m0 : RWMap) (key : K) (value : Option V) :
    Option (RWMap × Option V × Bool) :=
  swapBody (checkMerge m0) key value

/-- `mapEntry.CompareAndDelete` (lines 30-32) is
`b.v.CompareAndSwap(old, nil)`, and `atomic.Value.CompareAndSwap`
panics on a nil new value before comparing anything, so this call
always panics. -/
def entryCAD (_slots : List (Option V)) (_id : EntryId) (_old : Option V) :
    Option (List (Option V) × Bool) :=
  none

/-- `compareAndDeleteBig` (lines 213-225): `value.CompareAndDelete(old)`
(line 216) always panics, so the success branch — registering the entry
in the hot table, a panic itself when the hot table is nil — is never
reached. -/
def compareAndDeleteBig (m : RWMap) (key : K) (id : EntryId) (old : Option V) :
    Option (RWMap × Bool) :=
  match entryCAD m.slots id old with
  | none => none
  | some (slots, deleted) =>
    if deleted then
      match m.littleMap with
      | none => none
      | some lm =>
        some (scoreMiss { m with slots := slots, littleMap := some (ainsert lm key id) },
              true)
    else some ({ m with slots := slots }, false)

/-- `CompareAndDelete` little section (lines 328-339): a hot key hit
runs `scoreMiss` and then `v.CompareAndDelete(old)` (line 335), which
always panics; a miss returns false. -/
def cadLittle (m : RWMap) (key : K) (old : Option V) : Option (RWMap × Bool) :=
  match littleId m key with
  | some id =>
    match entryCAD (scoreMiss m).slots id old with
    | none => none
    | some (slots, deleted) => some ({ scoreMiss m with slots := slots }, deleted)
  | none => some (m, false)

/-- `CompareAndDelete` (lines 307-340): fail fast on a nil `old`; a key
present in the stable table (even with an emptied entry) is decided by
`compareAndDeleteBig` alone — the hot table is not consulted. -/
def cadBody (m : RWMap) (key : K) (old : Option V) : Option (RWMap × Bool) :=
  match bigId m key with
  | some id => compareAndDeleteBig m key id old
  | none => cadLittle m key old

def CompareAndDelete (m0 : RWMap) (key : K) (old : Option V) :
    Option (RWMap × Bool) :=
  if old = none then some (m0, false)
  else cadBody (checkMerge m0) key old

/-- `mapEntry.CompareAndSwap` (lines 23-28): reject nil `old`/`new`,
else an atomic compare-and-swap on the slot. -/
def entryCAS (slots : List (Option V)) (id : EntryId) (old newv : Option V) :
    List (Option V) × Bool :=
  if old = none ∨ newv = none then (slots, false)
  else if entryLoad slots id = old then (entryStore slots id newv, true)
  else (slots, false)

/-- `CompareAndSwap` little section (lines 360-374). -/
def casLittle (m : RWMap) (key : K) (old newv : Option V) : RWMap × Bool :=
  match littleId m key with
  | some id =>
    let m1 := scoreMiss m
    match entryLoad m1.slots id with
    | some u =>
      if some u = old then
        let (slots, swapped) := entryCAS m1.slots id old newv
        ({ m1 with slots := slots }, swapped)
      else (m1, false)
    | none => (m1, false)
  | none => (m, false)

/-- `CompareAndSwap` (lines 342-375): fail fast on nil `old`/`new`; a
populated stable entry equal to `old` is swapped in place, otherwise
fall through to the hot table. -/
def casBody (m : RWMap) (key : K) (old newv : Option V) : RWMap × Bool :=
  match bigId m key with
  | some id =>
    match entryLoad m.slots id with
    | some u =>
      if some u = old then
        ({ m with slots := (entryCAS m.slots id old newv).1 },
         (entryCAS m.slots id old newv).2)
      else casLittle m key old newv
    | none => casLittle m key old newv
  | none => casLittle m key old newv

def CompareAndSwap (m0 : RWMap) (key : K) (old newv : Option V) : RWMap × Bool :=
  if old = none ∨ newv = none then (m0, false)
  else casBody (checkMerge m0) key old newv

/-- `mapEntry.LoadAndDelete` (lines 34-37) is `b.v.Swap(nil)`, and
`atomic.Value.Swap` panics on a nil new value, so this call always
panics. -/
def entryLAD (_slots : List (Option V)) (_id : EntryId) :
    Option (List (Option V) × Option V × Bool) :=
  none

/-- `loadAndDeleteBig` (lines 198-210): `value.LoadAndDelete()`
(line 201) always panics, so the loaded branch — registering the entry
in the hot table, a panic itself when the hot table is nil — is never
reached. -/
def loadAndDeleteBig (m : RWMap) (key : K) (id : EntryId) :
    Option (RWMap × Option V × Bool) :=
  match entryLAD m.slots id with
  | none => none
  | some (slots, old, loaded) =>
    if loaded then
      match m.littleMap with
      | none => none
      | some lm =>
        some (scoreMiss { m with slots := slots, littleMap := some (ainsert lm key id) },
              old, true)
    else some ({ m with slots := slots }, old, false)

/-- `LoadAndDelete` little section (lines 393-406): a hot key hit runs
`v.LoadAndDelete()` (line 399), which always panics (its loaded branch
would run `v.Delete()` and `scoreMiss`); a miss returns
`(nil, false)`. -/
def ladLittle (m : RWMap) (key : K) : Option (RWMap × Option V × Bool) :=
  match littleId m key with
  | some id =>
    match entryLAD m.slots id with
    | none => none
    | some (slots, old, loaded) =>
      if loaded then
        match entryDelete slots id with
        | none => none
        | some slots2 => some (scoreMiss { m with slots := slots2 }, old, true)
      else some ({ m with slots := slots }, none, false)
  | none => some (m, none, false)

/-- `LoadAndDelete` body under the big read lock (lines 380-409): a
loaded stable hit returns at once, otherwise fall through to the hot
table. -/
def ladBody (m : RWMap) (key : K) : Option (RWMap × Option V × Bool) :=
  match bigId m key with
  | some id =>
    match loadAndDeleteBig m key id with
    | none => none
    | some (m', v, true) => some (m', v, true)
    | some (m', _, false) => ladLittle m' key
  | none => ladLittle m key

/-- `LoadAndDelete` (lines 377-410). -/
def LoadAndDelete (m0 : RWMap) (key : K) : Option (RWMap × Option V × Bool) :=
  ladBody (checkMerge m0) key

/-- `LoadOrStore` little section (lines 428-445): `scoreMiss`
unconditionally, return a populated hot value, else create a fresh
entry holding `value` — note `value` here is the caller's variable,
which the stable-phase or hot-phase `value = v.Load()` may already have
overwritten with nil, in which case `v.Store(value)` (line 443) panics
before the insert; the insert itself, `m.littleMap[key] = v`
(line 444), panics when the hot table is nil. -/
def losLittle (m0 : RWMap) (key : K) (value0 : Option V) :
    Option (RWMap × Option V × Bool) :=
  let m := scoreMiss m0
  let value :=
    match littleId m key with
    | some id => entryLoad m.slots id
    | none => value0
  match littleId m key with
  | some id =>
    match entryLoad m.slots id with
    | some v => some (m, some v, true)
    | none =>
      if value = none then none
      else
        match m.littleMap with
        | none => none
        | some lm =>
          let (slots, nid) := alloc m.slots value
          some ({ m with slots := slots, littleMap := some (ainsert lm key nid) },
                value, false)
  | none =>
    if value = none then none
    else
      match m.littleMap with
      | none => none
      | some lm =>
        let (slots, nid) := alloc m.slots value
        some ({ m with slots := slots, littleMap := some (ainsert lm key nid) },
              value, false)

/-- `LoadOrStore` body under the big read lock (lines 415-445): a
populated stable hit returns at once; a stable key with an emptied entry
overwrites `value` with nil before falling through. -/
def losBody (m : RWMap) (key : K) (value0 : Option V) :
    Option (RWMap × Option V × Bool) :=
  match bigId m key with
  | some id =>
    match entryLoad m.slots id with
    | some v => some (m, some v, true)
    | none => losLittle m key none
  | none => losLittle m key value0

/-- `LoadOrStore` (lines 412-446). -/
def LoadOrStore (m0 : RWMap) (key : K) (value0 : Option V) :
    Option (RWMap × Option V × Bool) :=
  losBody (checkMerge m0) key value0

/-- One `Range` iteration over the stable table (lines 454-462): copy a
populated entry's value into the snapshot. -/
def bigSnapStep (slots : List (Option V)) (c : AList V) (p : K × EntryId) : AList V :=
  match entryLoad slots p.2 with
  | some a => ainsert c p.1 a
  | none => c

/-- One `Range` iteration over the hot table (lines 467-477): a
populated entry overrides the snapshot, an empty one deletes from it. -/
def littleSnapStep (slots : List (Option V)) (c : AList V) (p : K × EntryId) : AList V :=
  match entryLoad slots p.2 with
  | some a => ainsert c p.1 a
  | none => aerase c p.1

/-- The final loop of `Range` (lines 482-486): invoke `f` on each
snapshot pair, stopping after the first `false`.  The result is the list
of pairs `f` was invoked on. -/
def runVisits (f : K → V → Bool) : AList V → AList V
  | [] => []
  | p :: rest => if f p.1 p.2 then p :: runVisits f rest else [p]

/-- `Range` (lines 448-487): snapshot the stable table, `scoreMiss`,
overlay the hot table, then visit the snapshot.  Returns the final state
and the list of visited pairs. -/
def rangeBody (m : RWMap) (f : K → V → Bool) : RWMap × AList V :=
  (scoreMiss m,
   runVisits f
     (((scoreMiss m).littleMap.getD []).foldl (littleSnapStep (scoreMiss m).slots)
       ((m.bigMap.getD []).foldl (bigSnapStep m.slots) [])))

def Range (m0 : RWMap) (f : K → V → Bool) : RWMap × AList V :=
  rangeBody (checkMerge m0) f

/-- `Clear` (lines 489-497): drop both tables; the counter and the
ready flag are left untouched. -/
def Clear (m : RWMap) : RWMap :=
  { m with bigMap := none, littleMap := none }

/-! ### Invariant predicates used as hypotheses

Spec §3 states the container-level invariant: for any key, at most one
of the stable and hot entries is non-empty.  `AMO` is that invariant at
one key; `KeyOK` weakens it to also allow the two entries to agree;
`IdBound` says the table entries for a key point into the heap (true of
every pointer in the Go program); a hot entry recorded as a tombstone
for a stable key has an empty stable entry (`TombOK`). -/

def nodupL (m : RWMap) : Prop := (akeys (m.littleMap.getD [])).Nodup

def nodupB (m : RWMap) : Prop := (akeys (m.bigMap.getD [])).Nodup

def AMO (m : RWMap) (k : K) : Prop := bigVal m k = none ∨ littleVal m k = none

def KeyOK (m : RWMap) (k : K) : Prop :=
  bigVal m k = none ∨ littleVal m k = none ∨ bigVal m k = littleVal m k

def IdBound (m : RWMap) (k : K) : Prop :=
  (∀ id, bigId m k = some id → id < m.slots.length) ∧
  (∀ id, littleId m k = some id → id < m.slots.length)

def KeyWF (m : RWMap) (k : K) : Prop := AMO m k ∧ IdBound m k

/-! ## Theorems

### Association-list and heap lemmas -/

theorem akeys_nil {β : Type} : akeys ([] : AList β) = [] := rfl

theorem akeys_cons {β : Type} (p : K × β) (rest : AList β) :
    akeys (p :: rest) = p.1 :: akeys rest := rfl

theorem alookup_aerase_self {β : Type} (l : AList β) (k : K) :
    alookup (aerase l k) k = none := by
  induction l with
  | nil => rfl
  | cons p rest ih =>
    by_cases h : p.1 = k
    · simpa [aerase, h] using ih
    · simp [aerase, alookup, h, ih]

theorem alookup_aerase_ne {β : Type} (l : AList β) {k k' : K} (h : k' ≠ k) :
    alookup (aerase l k) k' = alookup l k' := by
  induction l with
  | nil => rfl
  | cons p rest ih =>
    by_cases hp : p.1 = k
    · have hpk' : p.1 ≠ k' := fun hh => h (by rw [← hh, hp])
      simp only [aerase, if_pos hp, alookup, if_neg hpk']
      exact ih
    · simp only [aerase, if_neg hp, alookup]
      by_cases hp' : p.1 = k'
      · simp [hp']
      · simp [hp', ih]

theorem alookup_append {β : Type} (l1 l2 : AList β) (k : K) :
    alookup (l1 ++ l2) k =
      match alookup l1 k with
      | some v => some v
      | none => alookup l2 k := by
  induction l1 with
  | nil => simp [alookup]
  | cons p rest ih =>
    by_cases h : p.1 = k
    · simp [alookup, h]
    · simp [alookup, h, ih]

theorem alookup_ainsert_self {β : Type} (l : AList β) (k : K) (v : β) :
    alookup (ainsert l k v) k = some v := by
  simp [ainsert, alookup_append, alookup_aerase_self, alookup]

theorem alookup_ainsert_ne {β : Type} (l : AList β) {k k' : K} (v : β) (h : k' ≠ k) :
    alookup (ainsert l k v) k' = alookup l k' := by
  simp [ainsert, alookup_append, alookup_aerase_ne l h, alookup, Ne.symm h]
  cases halt : alookup l k' <;> simp

theorem not_mem_akeys_iff {β : Type} (l : AList β) (k : K) :
    k ∉ akeys l ↔ alookup l k = none := by
  induction l with
  | nil => simp [akeys_nil, alookup]
  | cons p rest ih =>
    rw [akeys_cons]
    by_cases h : p.1 = k
    · simp [alookup, h]
    · have hk : ¬ k = p.1 := fun hh => h hh.symm
      simp only [List.mem_cons, not_or, alookup, if_neg h]
      constructor
      · intro hh
        exact ih.mp hh.2
      · intro hl
        exact ⟨hk, ih.mpr hl⟩

theorem mem_of_alookup_eq_some {β : Type} {l : AList β} {k : K} {v : β}
    (h : alookup l k = some v) : (k, v) ∈ l := by
  induction l with
  | nil => simp [alookup] at h
  | cons p rest ih =>
    by_cases hp : p.1 = k
    · rw [alookup, if_pos hp] at h
      cases p with
      | mk a b =>
        simp at h hp
        subst hp
        subst h
        exact List.mem_cons_self _ _
    · rw [alookup, if_neg hp] at h
      exact List.mem_cons_of_mem _ (ih h)

theorem alookup_eq_some_of_mem {β : Type} {l : AList β} {k : K} {v : β}
    (hnd : (akeys l).Nodup) (h : (k, v) ∈ l) : alookup l k = some v := by
  induction l with
  | nil => simp at h
  | cons p rest ih =>
    rw [akeys_cons, List.nodup_cons] at hnd
    rcases List.mem_cons.mp h with h1 | h2
    · rw [← h1]
      simp [alookup]
    · have hk : k ∈ akeys rest := List.mem_map_of_mem Prod.fst h2
      have hp : p.1 ≠ k := fun he => hnd.1 (he ▸ hk)
      rw [alookup, if_neg hp]
      exact ih hnd.2 h2

theorem aerase_sublist {β : Type} (l : AList β) (k : K) : (aerase l k).Sublist l := by
  induction l with
  | nil => simp [aerase]
  | cons p rest ih =>
    by_cases h : p.1 = k
    · rw [aerase, if_pos h]
      exact ih.cons _
    · rw [aerase, if_neg h]
      exact ih.cons₂ _

theorem nodup_akeys_aerase {β : Type} {l : AList β} (k : K)
    (h : (akeys l).Nodup) : (akeys (aerase l k)).Nodup :=
  h.sublist ((aerase_sublist l k).map Prod.fst)

theorem not_mem_akeys_aerase {β : Type} (l : AList β) (k : K) :
    k ∉ akeys (aerase l k) := by
  rw [not_mem_akeys_iff]
  exact alookup_aerase_self l k

theorem nodup_akeys_ainsert {β : Type} {l : AList β} (k : K) (v : β)
    (h : (akeys l).Nodup) : (akeys (ainsert l k v)).Nodup := by
  have he : akeys (ainsert l k v) = akeys (aerase l k) ++ [k] := by
    simp [ainsert, akeys]
  rw [he]
  refine List.Nodup.append (nodup_akeys_aerase k h) (List.nodup_singleton k) ?_
  intro x hx hx'
  simp at hx'
  rw [hx'] at hx
  exact not_mem_akeys_aerase l k hx

theorem entryStore_length (s : List (Option V)) (id : EntryId) (w : Option V) :
    (entryStore s id w).length = s.length := by
  induction s generalizing id with
  | nil => rfl
  | cons o rest ih =>
    cases id with
    | zero => rfl
    | succ n => simp [entryStore, ih]

theorem entryLoad_of_le {s : List (Option V)} {id : EntryId}
    (h : s.length ≤ id) : entryLoad s id = none := by
  induction s generalizing id with
  | nil => rfl
  | cons o rest ih =>
    cases id with
    | zero => simp at h
    | succ n => exact ih (Nat.le_of_succ_le_succ h)

theorem lt_length_of_entryLoad_eq_some {s : List (Option V)} {id : EntryId} {v : V}
    (h : entryLoad s id = some v) : id < s.length := by
  by_contra hlt
  rw [entryLoad_of_le (Nat.le_of_not_lt hlt)] at h
  exact Option.noConfusion h

theorem entryLoad_entryStore_self (s : List (Option V)) (id : EntryId) (w : Option V) :
    entryLoad (entryStore s id w) id = if id < s.length then w else none := by
  induction s generalizing id with
  | nil => simp [entryStore, entryLoad]
  | cons o rest ih =>
    cases id with
    | zero => simp [entryStore, entryLoad]
    | succ n => simpa [entryStore, entryLoad, Nat.succ_lt_succ_iff] using ih n

theorem entryLoad_entryStore_ne (s : List (Option V)) {id id' : EntryId} (w : Option V)
    (h : id' ≠ id) : entryLoad (entryStore s id w) id' = entryLoad s id' := by
  induction s generalizing id id' with
  | nil => rfl
  | cons o rest ih =>
    cases id with
    | zero =>
      cases id' with
      | zero => exact (h rfl).elim
      | succ n => simp [entryStore, entryLoad]
    | succ m =>
      cases id' with
      | zero => simp [entryStore, entryLoad]
      | succ n => simpa [entryStore, entryLoad] using ih (fun he => h (by simp [he]))

theorem entryLoad_append (s : List (Option V)) (w : Option V) (id : EntryId) :
    entryLoad (s ++ [w]) id =
      if id < s.length then entryLoad s id
      else if id = s.length then w else none := by
  induction s generalizing id with
  | nil =>
    cases id with
    | zero => simp [entryLoad]
    | succ n => simp [entryLoad]
  | cons o rest ih =>
    cases id with
    | zero => simp [entryLoad]
    | succ n => simpa [entryLoad, Nat.succ_lt_succ_iff] using ih n

theorem AMO.keyOK {m : RWMap} {k : K} (h : AMO m k) : KeyOK m k :=
  h.elim Or.inl (fun h2 => Or.inr (Or.inl h2))

theorem logicalLoad_eq_none_iff (m : RWMap) (k : K) :
    logicalLoad m k = none ↔ bigVal m k = none ∧ littleVal m k = none := by
  unfold logicalLoad
  cases h : bigVal m k <;> simp [h]

/-! ### Component lemmas: which fields each helper touches -/

theorem scoreMiss_bigMap (m : RWMap) : (scoreMiss m).bigMap = m.bigMap := by
  unfold scoreMiss
  split
  · split <;> rfl
  · rfl

theorem scoreMiss_littleMap (m : RWMap) : (scoreMiss m).littleMap = m.littleMap := by
  unfold scoreMiss
  split
  · split <;> rfl
  · rfl

theorem scoreMiss_slots (m : RWMap) : (scoreMiss m).slots = m.slots := by
  unfold scoreMiss
  split
  · split <;> rfl
  · rfl

theorem bigId_scoreMiss (m : RWMap) (k : K) : bigId (scoreMiss m) k = bigId m k := by
  unfold bigId
  rw [scoreMiss_bigMap]

theorem littleId_scoreMiss (m : RWMap) (k : K) :
    littleId (scoreMiss m) k = littleId m k := by
  unfold littleId
  rw [scoreMiss_littleMap]

theorem bigVal_scoreMiss (m : RWMap) (k : K) : bigVal (scoreMiss m) k = bigVal m k := by
  unfold bigVal
  rw [bigId_scoreMiss, scoreMiss_slots]

theorem littleVal_scoreMiss (m : RWMap) (k : K) :
    littleVal (scoreMiss m) k = littleVal m k := by
  unfold littleVal
  rw [littleId_scoreMiss, scoreMiss_slots]

theorem logicalLoad_scoreMiss (m : RWMap) (k : K) :
    logicalLoad (scoreMiss m) k = logicalLoad m k := by
  unfold logicalLoad
  rw [bigVal_scoreMiss, littleVal_scoreMiss]

theorem merge_littleMap (m : RWMap) : (merge m).littleMap = none := by
  unfold merge
  cases m.littleMap with
  | none => rfl
  | some lm => by_cases h : 0 < lm.length <;> simp [h]

theorem merge_slots (m : RWMap) : (merge m).slots = m.slots := by
  unfold merge
  cases m.littleMap with
  | none => rfl
  | some lm => by_cases h : 0 < lm.length <;> simp [h]

theorem merge_shouldMerge (m : RWMap) : (merge m).shouldMerge = false := by
  unfold merge
  cases m.littleMap with
  | none => rfl
  | some lm => by_cases h : 0 < lm.length <;> simp [h]

theorem merge_bigMap (m : RWMap) :
    (merge m).bigMap =
      match m.littleMap with
      | some lm =>
        if 0 < lm.length then
          some (lm.foldl (mergeStep m.slots) (m.bigMap.getD []))
        else m.bigMap
      | none => m.bigMap := by
  unfold merge
  cases m.littleMap with
  | none => rfl
  | some lm => by_cases h : 0 < lm.length <;> simp [h]

theorem littleVal_merge (m : RWMap) (k : K) : littleVal (merge m) k = none := by
  unfold littleVal littleId
  rw [merge_littleMap]
  rfl

theorem checkMerge_shouldMerge (m : RWMap) : (checkMerge m).shouldMerge = false := by
  unfold checkMerge
  cases h : m.shouldMerge with
  | true => simp [merge_shouldMerge]
  | false => simp [h]

/-! ### The merge fold: lookup characterization -/

theorem mergeStep_alookup_ne (slots : List (Option V)) (big : AList EntryId)
    (p : K × EntryId) {k : K} (h : p.1 ≠ k) :
    alookup (mergeStep slots big p) k = alookup big k := by
  unfold mergeStep
  split
  · cases hb : alookup big p.1 with
    | none => rfl
    | some oid =>
      by_cases ho : entryLoad slots oid = none <;>
        simp [hb, ho, alookup_aerase_ne big (fun hh => h hh.symm)]
  · exact alookup_ainsert_ne big _ (fun hh => h hh.symm)

theorem foldl_alookup_not_mem {β γ : Type}
    (step : AList β → K × γ → AList β) {k : K}
    (hstep : ∀ acc p, p.1 ≠ k → alookup (step acc p) k = alookup acc k)
    (l : List (K × γ)) (acc : AList β) (hl : k ∉ l.map Prod.fst) :
    alookup (l.foldl step acc) k = alookup acc k := by
  induction l generalizing acc with
  | nil => rfl
  | cons p rest ih =>
    simp only [List.map_cons, List.mem_cons, not_or] at hl
    rw [List.foldl_cons, ih (step acc p) hl.2, hstep acc p (fun hh => hl.1 hh.symm)]

theorem merge_fold_alookup (slots : List (Option V)) (lm : AList EntryId)
    (big : AList EntryId) (k : K) (hnd : (akeys lm).Nodup) :
    alookup (lm.foldl (mergeStep slots) big) k =
      match alookup lm k with
      | some id =>
        if entryLoad slots id = none then
          match alookup big k with
          | some oid => if entryLoad slots oid = none then none else some oid
          | none => none
        else some id
      | none => alookup big k := by
  induction lm generalizing big with
  | nil => rfl
  | cons p rest ih =>
    rw [akeys_cons, List.nodup_cons] at hnd
    rw [List.foldl_cons]
    by_cases hp : p.1 = k
    · have hrest : k ∉ akeys rest := hp ▸ hnd.1
      rw [foldl_alookup_not_mem (mergeStep slots)
            (fun acc q hq => mergeStep_alookup_ne slots acc q hq) rest
            (mergeStep slots big p) hrest]
      have hrest' : alookup rest k = none := (not_mem_akeys_iff rest k).mp hrest
      simp only [alookup, if_pos hp, hrest']
      unfold mergeStep
      rw [hp]
      split
      · cases hb : alookup big k with
        | none => simp [hb]
        | some oid =>
          by_cases ho : entryLoad slots oid = none <;>
            simp [hb, ho, alookup_aerase_self]
      · exact alookup_ainsert_self big k p.2
    · rw [ih (mergeStep slots big p) hnd.2]
      simp only [alookup, if_neg hp]
      cases hr : alookup rest k with
      | none => exact mergeStep_alookup_ne slots big p hp
      | some id =>
        by_cases he : entryLoad slots id = none
        · simp only [he, if_pos rfl]
          rw [mergeStep_alookup_ne slots big p hp]
        · simp [he]

/-- Merging does not change the externally observable value of a key,
provided the hot table has no duplicate keys and the key satisfies the
container invariant (at most one populated entry, or two that agree). -/
theorem logicalLoad_merge (m : RWMap) (k : K) (hL : nodupL m) (hK : KeyOK m k) :
    logicalLoad (merge m) k = logicalLoad m k := by
  have hlv : littleVal (merge m) k = none := littleVal_merge m k
  cases hm : m.littleMap with
  | none =>
    have hb : bigVal (merge m) k = bigVal m k := by
      unfold bigVal bigId
      rw [merge_bigMap, merge_slots, hm]
    have hl : littleVal m k = none := by
      unfold littleVal littleId
      rw [hm]
      rfl
    unfold logicalLoad
    rw [hb, hlv, hl]
  | some lm =>
    have hbid : bigId m k = alookup (m.bigMap.getD []) k := rfl
    have hlid : littleId m k = alookup lm k := by
      unfold littleId
      rw [hm]
      rfl
    by_cases hlen : 0 < lm.length
    · have hLnd : (akeys lm).Nodup := by
        unfold nodupL at hL
        rwa [hm] at hL
      have hb : bigId (merge m) k =
          match alookup lm k with
          | some id =>
            if entryLoad m.slots id = none then
              match alookup (m.bigMap.getD []) k with
              | some oid => if entryLoad m.slots oid = none then none else some oid
              | none => none
            else some id
          | none => alookup (m.bigMap.getD []) k := by
        unfold bigId
        rw [merge_bigMap, hm]
        dsimp only
        rw [if_pos hlen]
        exact merge_fold_alookup m.slots lm (m.bigMap.getD []) k hLnd
      cases hll : alookup lm k with
      | none =>
        rw [hll] at hb
        dsimp only at hb
        have hl : littleVal m k = none := by
          unfold littleVal
          rw [hlid, hll]
        have hbv : bigVal (merge m) k = bigVal m k := by
          unfold bigVal
          rw [merge_slots, hb, hbid]
        unfold logicalLoad
        rw [hbv, hlv, hl]
      | some id =>
        rw [hll] at hb
        dsimp only at hb
        by_cases he : entryLoad m.slots id = none
        · rw [if_pos he] at hb
          have hl : littleVal m k = none := by
            unfold littleVal
            rw [hlid, hll]
            exact he
          have hbv : bigVal (merge m) k = bigVal m k := by
            unfold bigVal
            rw [merge_slots, hb, hbid]
            cases hbig : alookup (m.bigMap.getD []) k with
            | none => rfl
            | some oid =>
              dsimp only
              by_cases ho : entryLoad m.slots oid = none
              · rw [if_pos ho]
                dsimp only
                rw [ho]
              · rw [if_neg ho]
          unfold logicalLoad
          rw [hbv, hlv, hl]
        · rw [if_neg he] at hb
          have hl : littleVal m k = entryLoad m.slots id := by
            unfold littleVal
            rw [hlid, hll]
          have hbv : bigVal (merge m) k = entryLoad m.slots id := by
            unfold bigVal
            rw [merge_slots, hb]
          unfold logicalLoad
          rw [hbv, hlv]
          cases hu : entryLoad m.slots id with
          | none => exact absurd hu he
          | some u =>
            rcases hK with hK | hK | hK
            · simp [hK, hl, hu]
            · rw [hl] at hK
              exact absurd hK he
            · simp [hK, hl, hu]
    · have hb : bigVal (merge m) k = bigVal m k := by
        unfold bigVal bigId
        rw [merge_bigMap, merge_slots, hm]
        dsimp only
        rw [if_neg hlen]
      have hl : littleVal m k = none := by
        have hnil : lm = [] := List.length_eq_zero.mp (Nat.eq_zero_of_not_pos hlen)
        unfold littleVal
        rw [hlid, hnil]
        rfl
      unfold logicalLoad
      rw [hb, hlv, hl]

theorem logicalLoad_checkMerge (m : RWMap) (k : K) (hL : nodupL m) (hK : KeyOK m k) :
    logicalLoad (checkMerge m) k = logicalLoad m k := by
  unfold checkMerge
  split
  · exact logicalLoad_merge m k hL hK
  · rfl

theorem keyOK_merge (m : RWMap) (k : K) : KeyOK (merge m) k :=
  Or.inr (Or.inl (littleVal_merge m k))

theorem nodupL_merge (m : RWMap) : nodupL (merge m) := by
  unfold nodupL
  rw [merge_littleMap]
  exact List.nodup_nil

theorem nodupL_checkMerge (m : RWMap) (hL : nodupL m) : nodupL (checkMerge m) := by
  unfold checkMerge
  split
  · exact nodupL_merge m
  · exact hL

theorem nodupL_scoreMiss (m : RWMap) (hL : nodupL m) : nodupL (scoreMiss m) := by
  unfold nodupL
  rw [scoreMiss_littleMap]
  exact hL

/-! ### `Load` returns the logical view -/

theorem loadLittle_snd (m : RWMap) (k : K) :
    (loadLittle m k).2 = (littleVal m k, (littleVal m k).isSome) := by
  unfold loadLittle littleVal littleId
  cases hm : m.littleMap with
  | none => rfl
  | some lm =>
    simp only [Option.getD_some]
    cases hl : alookup lm k with
    | none => rfl
    | some id =>
      dsimp only
      cases he : entryLoad m.slots id with
      | none => rfl
      | some v => rfl

theorem loadBody_snd (m : RWMap) (k : K) :
    (loadBody m k).2 = (logicalLoad m k, (logicalLoad m k).isSome) := by
  unfold loadBody logicalLoad bigVal
  cases hb : bigId m k with
  | none => exact loadLittle_snd m k
  | some id =>
    dsimp only
    cases he : entryLoad m.slots id with
    | none => exact loadLittle_snd m k
    | some v => rfl

theorem Load_snd (m0 : RWMap) (k : K) :
    (Load m0 k).2 =
      (logicalLoad (checkMerge m0) k, (logicalLoad (checkMerge m0) k).isSome) :=
  loadBody_snd (checkMerge m0) k

/-! ### Record-update component lemmas (all definitional) -/

theorem bigVal_set_slots (m : RWMap) (s : List (Option V)) (k : K) :
    bigVal { m with slots := s } k =
      match bigId m k with
      | some id => entryLoad s id
      | none => none := rfl

theorem littleVal_set_slots (m : RWMap) (s : List (Option V)) (k : K) :
    littleVal { m with slots := s } k =
      match littleId m k with
      | some id => entryLoad s id
      | none => none := rfl

theorem bigVal_set_slots_little (m : RWMap) (s : List (Option V))
    (lm : Option (AList EntryId)) (k : K) :
    bigVal { m with slots := s, littleMap := lm } k =
      match bigId m k with
      | some id => entryLoad s id
      | none => none := rfl

theorem littleVal_set_slots_little (m : RWMap) (s : List (Option V))
    (lm : Option (AList EntryId)) (k : K) :
    littleVal { m with slots := s, littleMap := lm } k =
      match alookup (lm.getD []) k with
      | some id => entryLoad s id
      | none => none := rfl

/-! ### Effect of `Store` on the logical view -/

theorem logicalLoad_storeCreate (m : RWMap) (k : K) (v : V)
    (hbig : bigVal m k = none) :
    logicalLoad (storeCreate m k (some v)) k = some v := by
  unfold storeCreate alloc
  rw [logicalLoad_scoreMiss]
  unfold logicalLoad
  rw [bigVal_set_slots_little, littleVal_set_slots_little, Option.getD_some,
      alookup_ainsert_self]
  dsimp only
  rw [entryLoad_append, if_neg (lt_irrefl _), if_pos rfl]
  cases hb : bigId m k with
  | none => rfl
  | some bid =>
    have hbe : entryLoad m.slots bid = none := by
      unfold bigVal at hbig
      rw [hb] at hbig
      exact hbig
    dsimp only
    rw [entryLoad_append]
    by_cases hlt : bid < m.slots.length
    · rw [if_pos hlt, hbe]
    · rw [if_neg hlt]
      by_cases heq : bid = m.slots.length
      · rw [if_pos heq]
      · rw [if_neg heq]

theorem logicalLoad_storeLittle (m : RWMap) (k : K) (v : V)
    (hbig : bigVal m k = none) :
    logicalLoad (storeLittle m k (some v)) k = some v := by
  unfold storeLittle
  cases hl : alookup (m.littleMap.getD []) k with
  | none => exact logicalLoad_storeCreate m k v hbig
  | some id =>
    dsimp only
    cases he : entryLoad m.slots id with
    | none => exact logicalLoad_storeCreate m k v hbig
    | some u =>
      rw [logicalLoad_scoreMiss]
      unfold logicalLoad
      rw [bigVal_set_slots, littleVal_set_slots]
      have hlid : littleId m k = some id := hl
      rw [hlid]
      dsimp only
      have hlt : id < m.slots.length := lt_length_of_entryLoad_eq_some he
      rw [entryLoad_entryStore_self, if_pos hlt]
      cases hb : bigId m k with
      | none => rfl
      | some bid =>
        have hbe : entryLoad m.slots bid = none := by
          unfold bigVal at hbig
          rw [hb] at hbig
          exact hbig
        have hne : bid ≠ id := by
          intro hh
          rw [hh, he] at hbe
          exact Option.noConfusion hbe
        dsimp only
        rw [entryLoad_entryStore_ne m.slots (some v) hne, hbe]

theorem logicalLoad_storeBody (m : RWMap) (k : K) (v : V) :
    logicalLoad (storeBody m k (some v)) k = some v := by
  unfold storeBody
  cases hb : bigId m k with
  | none =>
    have hbig : bigVal m k = none := by
      unfold bigVal
      rw [hb]
    exact logicalLoad_storeLittle m k v hbig
  | some id =>
    dsimp only
    cases he : entryLoad m.slots id with
    | none =>
      have hbig : bigVal m k = none := by
        unfold bigVal
        rw [hb]
        exact he
      exact logicalLoad_storeLittle m k v hbig
    | some u =>
      have hlt : id < m.slots.length := lt_length_of_entryLoad_eq_some he
      unfold logicalLoad
      rw [bigVal_set_slots, hb]
      dsimp only
      rw [entryLoad_entryStore_self, if_pos hlt]

theorem logicalLoad_Store (m0 : RWMap) (k : K) (v : V) :
    logicalLoad (Store m0 k (some v)) k = some v :=
  logicalLoad_storeBody (checkMerge m0) k v

/-! ### Preservation of the per-key invariant -/

theorem keyWF_scoreMiss {m : RWMap} {k : K} (h : KeyWF m k) : KeyWF (scoreMiss m) k := by
  obtain ⟨hA, hBb, hBl⟩ := h
  refine ⟨?_, ?_, ?_⟩
  · unfold AMO at hA ⊢
    rwa [bigVal_scoreMiss, littleVal_scoreMiss]
  · intro id hid
    rw [bigId_scoreMiss] at hid
    rw [scoreMiss_slots]
    exact hBb id hid
  · intro id hid
    rw [littleId_scoreMiss] at hid
    rw [scoreMiss_slots]
    exact hBl id hid

theorem keyWF_merge {m : RWMap} {k : K} (hL : nodupL m) (h : KeyWF m k) :
    KeyWF (merge m) k := by
  obtain ⟨hA, hBb, hBl⟩ := h
  refine ⟨Or.inr (littleVal_merge m k), ?_, ?_⟩
  · intro id hid
    rw [merge_slots]
    cases hm : m.littleMap with
    | none =>
      have hsame : bigId (merge m) k = bigId m k := by
        unfold bigId
        rw [merge_bigMap, hm]
      rw [hsame] at hid
      exact hBb id hid
    | some lm =>
      by_cases hlen : 0 < lm.length
      · have hLnd : (akeys lm).Nodup := by
          unfold nodupL at hL
          rwa [hm] at hL
        have hchar : bigId (merge m) k =
            match alookup lm k with
            | some lid =>
              if entryLoad m.slots lid = none then
                match alookup (m.bigMap.getD []) k with
                | some oid => if entryLoad m.slots oid = none then none else some oid
                | none => none
              else some lid
            | none => alookup (m.bigMap.getD []) k := by
          unfold bigId
          rw [merge_bigMap, hm]
          dsimp only
          rw [if_pos hlen]
          exact merge_fold_alookup m.slots lm (m.bigMap.getD []) k hLnd
        rw [hchar] at hid
        cases hll : alookup lm k with
        | none =>
          rw [hll] at hid
          exact hBb id hid
        | some lid =>
          rw [hll] at hid
          dsimp only at hid
          by_cases he : entryLoad m.slots lid = none
          · rw [if_pos he] at hid
            cases hbig : alookup (m.bigMap.getD []) k with
            | none =>
              rw [hbig] at hid
              exact Option.noConfusion hid
            | some oid =>
              rw [hbig] at hid
              dsimp only at hid
              by_cases ho : entryLoad m.slots oid = none
              · rw [if_pos ho] at hid
                exact Option.noConfusion hid
              · rw [if_neg ho] at hid
                injection hid with h2
                rw [← h2]
                exact hBb oid hbig
          · rw [if_neg he] at hid
            injection hid with h2
            rw [← h2]
            have hlid : littleId m k = some lid := by
              unfold littleId
              rw [hm]
              exact hll
            exact hBl lid hlid
      · have hsame : bigId (merge m) k = bigId m k := by
          unfold bigId
          rw [merge_bigMap, hm]
          dsimp only
          rw [if_neg hlen]
        rw [hsame] at hid
        exact hBb id hid
  · intro id hid
    unfold littleId at hid
    rw [merge_littleMap] at hid
    exact Option.noConfusion hid

theorem keyWF_checkMerge {m : RWMap} {k : K} (hL : nodupL m) (h : KeyWF m k) :
    KeyWF (checkMerge m) k := by
  unfold checkMerge
  split
  · exact keyWF_merge hL h
  · exact h

theorem keyOK_checkMerge {m : RWMap} (k : K) (hK : KeyOK m k) :
    KeyOK (checkMerge m) k := by
  unfold checkMerge
  split
  · exact keyOK_merge m k
  · exact hK

theorem keyWF_storeCreate {m : RWMap} {k : K} (w : Option V) (h : KeyWF m k)
    (hbig : bigVal m k = none) :
    KeyWF (storeCreate m k w) k := by
  obtain ⟨hA, hBb, hBl⟩ := h
  unfold storeCreate alloc
  apply keyWF_scoreMiss
  refine ⟨Or.inl ?_, ?_, ?_⟩
  · rw [bigVal_set_slots_little]
    cases hb : bigId m k with
    | none => rfl
    | some bid =>
      have hbe : entryLoad m.slots bid = none := by
        unfold bigVal at hbig
        rw [hb] at hbig
        exact hbig
      have hlt : bid < m.slots.length := hBb bid hb
      dsimp only
      rw [entryLoad_append, if_pos hlt]
      exact hbe
  · intro id hid
    have hlt : id < m.slots.length := hBb id hid
    calc id < m.slots.length := hlt
      _ ≤ (m.slots ++ [w]).length := by simp
  · intro id hid
    have hins : alookup (ainsert (m.littleMap.getD []) k m.slots.length) k =
        some m.slots.length := alookup_ainsert_self _ k _
    unfold littleId at hid
    dsimp only at hid
    rw [Option.getD_some] at hid
    rw [hins] at hid
    injection hid with h2
    rw [← h2]
    simp

theorem keyWF_storeLittle {m : RWMap} {k : K} (w : Option V) (h : KeyWF m k)
    (hbig : bigVal m k = none) :
    KeyWF (storeLittle m k w) k := by
  unfold storeLittle
  cases hl : alookup (m.littleMap.getD []) k with
  | none => exact keyWF_storeCreate w h hbig
  | some lid =>
    dsimp only
    cases he : entryLoad m.slots lid with
    | none => exact keyWF_storeCreate w h hbig
    | some u =>
      obtain ⟨hA, hBb, hBl⟩ := h
      apply keyWF_scoreMiss
      refine ⟨Or.inl ?_, ?_, ?_⟩
      · rw [bigVal_set_slots]
        cases hb : bigId m k with
        | none => rfl
        | some bid =>
          have hbe : entryLoad m.slots bid = none := by
            unfold bigVal at hbig
            rw [hb] at hbig
            exact hbig
          have hne : bid ≠ lid := by
            intro hh
            rw [hh, he] at hbe
            exact Option.noConfusion hbe
          dsimp only
          rw [entryLoad_entryStore_ne m.slots w hne]
          exact hbe
      · intro id hid
        have hlt : id < m.slots.length := hBb id hid
        rw [entryStore_length]
        exact hlt
      · intro id hid
        have hlt : id < m.slots.length := hBl id hid
        rw [entryStore_length]
        exact hlt

theorem keyWF_storeBody {m : RWMap} {k : K} (w : Option V) (h : KeyWF m k) :
    KeyWF (storeBody m k w) k := by
  unfold storeBody
  cases hb : bigId m k with
  | none =>
    have hbig : bigVal m k = none := by
      unfold bigVal
      rw [hb]
    exact keyWF_storeLittle w h hbig
  | some id =>
    dsimp only
    cases he : entryLoad m.slots id with
    | none =>
      have hbig : bigVal m k = none := by
        unfold bigVal
        rw [hb]
        exact he
      exact keyWF_storeLittle w h hbig
    | some u =>
      obtain ⟨hA, hBb, hBl⟩ := h
      have hbv : bigVal m k = some u := by
        unfold bigVal
        rw [hb]
        exact he
      have hlv : littleVal m k = none := by
        rcases hA with h1 | h1
        · rw [hbv] at h1
          exact absurd h1 (by simp)
        · exact h1
      refine ⟨Or.inr ?_, ?_, ?_⟩
      · rw [littleVal_set_slots]
        cases hlid : littleId m k with
        | none => rfl
        | some lid =>
          have hle : entryLoad m.slots lid = none := by
            unfold littleVal at hlv
            rw [hlid] at hlv
            exact hlv
          have hne : lid ≠ id := by
            intro hh
            rw [hh, he] at hle
            exact Option.noConfusion hle
          dsimp only
          rw [entryLoad_entryStore_ne m.slots w hne]
          exact hle
      · intro bid hbid
        have hlt : bid < m.slots.length := hBb bid hbid
        rw [entryStore_length]
        exact hlt
      · intro lid hlid
        have hlt : lid < m.slots.length := hBl lid hlid
        rw [entryStore_length]
        exact hlt

theorem keyWF_Store {m : RWMap} {k : K} (w : Option V) (hL : nodupL m)
    (h : KeyWF m k) : KeyWF (Store m k w) k :=
  keyWF_storeBody w (keyWF_checkMerge hL h)

/-! ### `nodupL` preservation -/

theorem nodupL_storeCreate {m : RWMap} (k : K) (w : Option V) (hL : nodupL m) :
    nodupL (storeCreate m k w) := by
  unfold storeCreate nodupL
  rw [scoreMiss_littleMap]
  dsimp only
  rw [Option.getD_some]
  exact nodup_akeys_ainsert k _ hL

theorem nodupL_storeLittle {m : RWMap} (k : K) (w : Option V) (hL : nodupL m) :
    nodupL (storeLittle m k w) := by
  unfold storeLittle
  cases hl : alookup (m.littleMap.getD []) k with
  | none => exact nodupL_storeCreate k w hL
  | some lid =>
    dsimp only
    cases he : entryLoad m.slots lid with
    | none => exact nodupL_storeCreate k w hL
    | some u =>
      unfold nodupL
      rw [scoreMiss_littleMap]
      exact hL

theorem nodupL_storeBody {m : RWMap} (k : K) (w : Option V) (hL : nodupL m) :
    nodupL (storeBody m k w) := by
  unfold storeBody
  cases hb : bigId m k with
  | none => exact nodupL_storeLittle k w hL
  | some id =>
    dsimp only
    cases he : entryLoad m.slots id with
    | none => exact nodupL_storeLittle k w hL
    | some u => exact hL

theorem nodupL_Store {m : RWMap} (k : K) (w : Option V) (hL : nodupL m) :
    nodupL (Store m k w) :=
  nodupL_storeBody k w (nodupL_checkMerge m hL)

/-! ## Claim theorems -/

/-- C1: the claim says every public operation completes without a
run-time failure, in particular the deletion family on a stable-table
key while the hot table is absent, and `LoadOrStore` on a fresh
container.  The code violates this: `LoadOrStore` on the zero-value
container executes `m.littleMap[key] = v` with `littleMap == nil`
(line 444) and panics ("assignment to entry in nil map"), and `Delete`
of a stable key panics inside `deleteBig` at `value.Delete()`
(line 191) — an atomic nil store — one line before the nil-map
assignment (line 192) it would otherwise hit right after a merge; both
panics are modelled as `none`. -/
theorem c1_nil_map_assignment_panics :
    LoadOrStore initMap 0 (some 1) = none ∧
    Delete (forceMerge (Store initMap 1 (some 10))) 1 = none := by
  constructor
  · rfl
  · rfl

/-- C2: the claim says `LoadOrStore(K, V)` on any reachable state with
K logically absent stores V under K and returns `(V, false)`.  The code
violates this already on the zero-value container, where every key is
absent: the hot-table tail executes `m.littleMap[key] = v` with
`littleMap == nil` (line 444) and panics instead of storing V and
returning `(V, false)`.  (The claim's emptied-stable-entry case cannot
be exercised at all: every operation that empties an entry itself
panics first at an atomic nil store, and were such a state reached,
line 421 `value = v.Load()` would overwrite V with the loaded nil and
the tail's `v.Store(value)` (line 443) would panic — V would never be
stored there either.)  Key 1 is logically absent in the fresh
container, yet `LoadOrStore 1 30` aborts. -/
theorem c2_load_or_store_absent_aborts :
    logicalLoad initMap 1 = none ∧
    LoadOrStore initMap 1 (some 30) = none := by
  constructor
  · rfl
  · rfl

/-- C3: the claim says `CompareAndDelete(K, V)` returns true and makes
K logically absent exactly when K's current logical value equals V.
The code can never do this: `mapEntry.CompareAndDelete` is
`v.CompareAndSwap(old, nil)` (line 31), and `atomic.Value.CompareAndSwap`
panics on the nil new value before comparing anything, so both
comparison paths — `compareAndDeleteBig` on a stable key (line 216) and
the hot-table branch (line 335) — abort precisely when the claim
requires returning true.  After `Store(1, 10)` the logical value of
key 1 is 10 whether the binding is hot or, after a merge, stable, yet
`CompareAndDelete 1 10` panics in both states.  (Independently, the
claim's shadowing scenario is also contradicted by the code text: a key
present in the stable table at all is decided by `compareAndDeleteBig`
alone, lines 317-326, without consulting the hot table.) -/
theorem c3_compare_and_delete_never_deletes :
    (logicalLoad (Store initMap 1 (some 10)) 1 = some 10 ∧
      CompareAndDelete (Store initMap 1 (some 10)) 1 (some 10) = none) ∧
    (logicalLoad (forceMerge (Store initMap 1 (some 10))) 1 = some 10 ∧
      CompareAndDelete (forceMerge (Store initMap 1 (some 10))) 1 (some 10) = none) := by
  exact ⟨⟨by decide, by decide⟩, by decide, by decide⟩

/-- C4: forcing a merge (or letting a set flag trigger one through
`checkMerge`) does not change the result of `Load(K)` for any key K —
stated for a hot table without duplicate keys and a key satisfying the
container invariant of spec §3 (at most one populated entry, or two
entries that agree). -/
theorem c4_merge_preserves_load (m : RWMap) (k : K) (hL : nodupL m)
    (hK : KeyOK m k) :
    (Load (forceMerge m) k).2 = (Load m k).2 ∧
    (Load (checkMerge m) k).2 = (Load m k).2 := by
  have hoff : ∀ m' : RWMap, m'.shouldMerge = false → checkMerge m' = m' := by
    intro m' hm'
    unfold checkMerge
    rw [hm']
    simp
  have hcm : checkMerge (forceMerge m) = forceMerge m :=
    hoff _ (merge_shouldMerge m)
  have hcm2 : checkMerge (checkMerge m) = checkMerge m :=
    hoff _ (checkMerge_shouldMerge m)
  have hmp : logicalLoad (merge m) k = logicalLoad m k := logicalLoad_merge m k hL hK
  have hcp : logicalLoad (checkMerge m) k = logicalLoad m k :=
    logicalLoad_checkMerge m k hL hK
  constructor
  · rw [Load_snd, Load_snd, hcm]
    show (logicalLoad (merge m) k, (logicalLoad (merge m) k).isSome) = _
    rw [hmp, hcp]
  · rw [Load_snd, Load_snd, hcm2]

/-- C4 witness: a state with a tombstoned stable entry for key 1, a hot
entry for key 2, and the merge flag set, observed at key 2. -/
theorem c4_witness :
    (Load (forceMerge (RWMap.mk (some [(1, 0)]) (some [(2, 1)])
        [none, some 20] 3 true)) 2).2 =
      (Load (RWMap.mk (some [(1, 0)]) (some [(2, 1)]) [none, some 20] 3 true) 2).2 :=
  (c4_merge_preserves_load
    (RWMap.mk (some [(1, 0)]) (some [(2, 1)]) [none, some 20] 3 true) 2
    (by unfold nodupL; decide) (by unfold KeyOK; decide)).1

/-- C5: after `Store(K, V)` a `Load(K)` returns `(V, true)`, and two
stores of V1 then V2 under K — directly, or with a forced merge between
them so the first write lands in the stable table — leave `Load(K)`
returning `(V2, true)`: the last store wins.  Stated for a hot table
without duplicate keys and a key satisfying the container invariant with
in-range entry ids (`KeyWF`). -/
theorem c5_last_store_wins (m : RWMap) (k : K) (v1 v2 : V) (hL : nodupL m)
    (hW : KeyWF m k) :
    (Load (Store m k (some v1)) k).2 = (some v1, true)
  ∧ (Load (Store (Store m k (some v1)) k (some v2)) k).2 = (some v2, true)
  ∧ (Load (Store (forceMerge (Store m k (some v1))) k (some v2)) k).2 =
      (some v2, true) := by
  have hL1 : nodupL (Store m k (some v1)) := nodupL_Store k _ hL
  have hW1 : KeyWF (Store m k (some v1)) k := keyWF_Store _ hL hW
  refine ⟨?_, ?_, ?_⟩
  · rw [Load_snd, logicalLoad_checkMerge _ _ hL1 hW1.1.keyOK, logicalLoad_Store]
    rfl
  · have hL2 : nodupL (Store (Store m k (some v1)) k (some v2)) :=
      nodupL_Store k _ hL1
    have hW2 : KeyWF (Store (Store m k (some v1)) k (some v2)) k :=
      keyWF_Store _ hL1 hW1
    rw [Load_snd, logicalLoad_checkMerge _ _ hL2 hW2.1.keyOK, logicalLoad_Store]
    rfl
  · have hLm : nodupL (forceMerge (Store m k (some v1))) := nodupL_merge _
    have hWm : KeyWF (forceMerge (Store m k (some v1))) k := keyWF_merge hL1 hW1
    have hL3 : nodupL (Store (forceMerge (Store m k (some v1))) k (some v2)) :=
      nodupL_Store k _ hLm
    have hW3 : KeyWF (Store (forceMerge (Store m k (some v1))) k (some v2)) k :=
      keyWF_Store _ hLm hWm
    rw [Load_snd, logicalLoad_checkMerge _ _ hL3 hW3.1.keyOK, logicalLoad_Store]
    rfl

/-- C5 witness: the three conclusions at the empty container, key 1,
values 10 and 20. -/
theorem c5_witness :
    (Load (Store initMap 1 (some 10)) 1).2 = (some 10, true)
  ∧ (Load (Store (Store initMap 1 (some 10)) 1 (some 20)) 1).2 = (some 20, true)
  ∧ (Load (Store (forceMerge (Store initMap 1 (some 10))) 1 (some 20)) 1).2 =
      (some 20, true) :=
  c5_last_store_wins initMap 1 10 20 (by unfold nodupL; decide)
    ⟨Or.inl rfl, fun _ h => Option.noConfusion h, fun _ h => Option.noConfusion h⟩

/-- C8: the ready flag is set only by `scoreMiss` upon the hot-table
size or the bumped miss counter reaching the threshold 64 (first
conjunct, an exact characterization), it is cleared by `merge` (and so
by any `checkMerge`), and `Clear` neither sets nor clears it.
`scoreMiss` and `merge` are the only definitions in the model that write
the flag, mirroring the two `shouldMerge.Store` calls in the source. -/
theorem c8_flag_discipline (m : RWMap) :
    ((scoreMiss m).shouldMerge = true ↔
      (m.shouldMerge = true ∨
        (0 < littleSize m ∧
          (64 ≤ littleSize m ∨ 64 ≤ (m.littleReads + 1) % 2 ^ 64))))
  ∧ (merge m).shouldMerge = false
  ∧ (checkMerge m).shouldMerge = false
  ∧ (Clear m).shouldMerge = m.shouldMerge := by
  refine ⟨?_, merge_shouldMerge m, checkMerge_shouldMerge m, rfl⟩
  unfold scoreMiss
  by_cases h : 0 < littleSize m
  · rw [if_pos h]
    by_cases h2 : 64 ≤ littleSize m ∨ 64 ≤ (m.littleReads + 1) % 2 ^ 64
    · rw [if_pos h2]
      constructor
      · intro _
        exact Or.inr ⟨h, h2⟩
      · intro _
        rfl
    · rw [if_neg h2]
      constructor
      · intro hf
        exact Or.inl hf
      · intro hf
        rcases hf with hf | ⟨_, hthr⟩
        · exact hf
        · exact absurd hthr h2
  · rw [if_neg h]
    constructor
    · intro hf
      exact Or.inl hf
    · intro hf
      rcases hf with hf | ⟨hpos, _⟩
      · exact hf
      · exact absurd hpos h

/-! ### Which `Load`s call `scoreMiss` -/

theorem loadLittle_fst_miss {m : RWMap} {k : K} (hmiss : littleVal m k = none) :
    (loadLittle m k).1 = m := by
  unfold loadLittle
  cases hm : m.littleMap with
  | none => rfl
  | some lm =>
    dsimp only
    cases hl : alookup lm k with
    | none => rfl
    | some id =>
      dsimp only
      cases he : entryLoad m.slots id with
      | none => rfl
      | some v =>
        have hv : littleVal m k = some v := by
          unfold littleVal littleId
          rw [hm, Option.getD_some, hl]
          exact he
        rw [hv] at hmiss
        exact Option.noConfusion hmiss

theorem loadLittle_fst_hit {m : RWMap} {k : K} {v : V}
    (hhit : littleVal m k = some v) :
    (loadLittle m k).1 = scoreMiss m := by
  unfold littleVal littleId at hhit
  unfold loadLittle
  cases hm : m.littleMap with
  | none =>
    rw [hm] at hhit
    exact Option.noConfusion hhit
  | some lm =>
    rw [hm, Option.getD_some] at hhit
    dsimp only
    cases hl : alookup lm k with
    | none =>
      rw [hl] at hhit
      exact Option.noConfusion hhit
    | some id =>
      rw [hl] at hhit
      dsimp only at hhit
      dsimp only
      rw [hhit]

/-- C7 counterexample: the claim says every operation consulting a
non-empty hot table increments the miss counter, including a `Load` of a
key absent from both tables.  In the state after `Store(2, 20)` the hot
table is non-empty and holds one entry, key 1 is logically absent, the
stable table is nil so `Load 1` falls through to the hot table — yet the
miss counter is unchanged (`Load`'s little section only calls
`scoreMiss` on a populated hit, lines 138-144). -/
theorem c7_counterexample :
    0 < littleSize (Store initMap 2 (some 20))
  ∧ logicalLoad (Store initMap 2 (some 20)) 1 = none
  ∧ (Load (Store initMap 2 (some 20)) 1).1.littleReads =
      (Store initMap 2 (some 20)).littleReads := by
  refine ⟨by decide, by decide, by decide⟩

/-- C7 amended: `Load` calls `scoreMiss` only when the hot-table lookup
finds a populated entry; when the looked-up key's hot entry is absent or
empty, `Load` leaves the state — in particular the miss counter —
completely unchanged (other operations, such as `LoadOrStore` and
`Range`, do call `scoreMiss` on every hot-table consult).  Stated with
the merge flag clear so that `checkMerge` does not reset the counter
first. -/
theorem c7_load_scores_only_populated_hits (m : RWMap) (k : K)
    (hflag : m.shouldMerge = false) :
    (littleVal m k = none → (Load m k).1 = m)
  ∧ (∀ v, bigVal m k = none → littleVal m k = some v →
      (Load m k).1 = scoreMiss m) := by
  have hcm : checkMerge m = m := by
    unfold checkMerge
    rw [hflag]
    simp
  constructor
  · intro hmiss
    unfold Load
    rw [hcm]
    unfold loadBody
    cases hb : bigId m k with
    | none => exact loadLittle_fst_miss hmiss
    | some id =>
      dsimp only
      cases he : entryLoad m.slots id with
      | some v => rfl
      | none => exact loadLittle_fst_miss hmiss
  · intro v hbig hhit
    unfold Load
    rw [hcm]
    unfold loadBody
    cases hb : bigId m k with
    | none => exact loadLittle_fst_hit hhit
    | some id =>
      dsimp only
      cases he : entryLoad m.slots id with
      | some u =>
        have : bigVal m k = some u := by
          unfold bigVal
          rw [hb]
          exact he
        rw [this] at hbig
        exact Option.noConfusion hbig
      | none => exact loadLittle_fst_hit hhit

/-- C7 witness: a total miss in the state after `Store(2, 20)` leaves
the state unchanged. -/
theorem c7_witness :
    (Load (Store initMap 2 (some 20)) 1).1 = Store initMap 2 (some 20) :=
  (c7_load_scores_only_populated_hits (Store initMap 2 (some 20)) 1
    (by decide)).1 (by decide)

/-! ### `CompareAndSwap` semantics -/

theorem casLittle_spec (n : RWMap) (k : K) (o w : V) (hbig : bigVal n k = none) :
    ((casLittle n k (some o) (some w)).2 = true ↔ littleVal n k = some o)
  ∧ ((casLittle n k (some o) (some w)).2 = true →
      logicalLoad (casLittle n k (some o) (some w)).1 k = some w)
  ∧ ((casLittle n k (some o) (some w)).2 = false →
      ∀ k', logicalLoad (casLittle n k (some o) (some w)).1 k' = logicalLoad n k') := by
  unfold casLittle
  cases hlid : littleId n k with
  | none =>
    have hlv : littleVal n k = none := by
      unfold littleVal
      rw [hlid]
    dsimp only
    refine ⟨?_, ?_, ?_⟩
    · rw [hlv]
      simp
    · intro h
      simp at h
    · intro _ k'
      rfl
  | some lid =>
    dsimp only
    rw [scoreMiss_slots]
    have hlv : littleVal n k = entryLoad n.slots lid := by
      unfold littleVal
      rw [hlid]
    cases he : entryLoad n.slots lid with
    | none =>
      dsimp only
      refine ⟨?_, ?_, ?_⟩
      · rw [hlv, he]
        simp
      · intro h
        simp at h
      · intro _ k'
        exact logicalLoad_scoreMiss n k'
    | some u =>
      dsimp only
      by_cases huo : u = o
      · rw [if_pos (by rw [huo]), entryCAS, if_neg (by simp), he, if_pos (by rw [huo])]
        dsimp only
        refine ⟨?_, ?_, ?_⟩
        · rw [hlv, he, huo]
          simp
        · intro _
          have hlt : lid < n.slots.length := lt_length_of_entryLoad_eq_some he
          unfold logicalLoad
          rw [bigVal_set_slots, littleVal_set_slots, bigId_scoreMiss,
              littleId_scoreMiss, hlid]
          dsimp only
          rw [entryLoad_entryStore_self, if_pos hlt]
          cases hbid : bigId n k with
          | none => rfl
          | some bid =>
            have hbe : entryLoad n.slots bid = none := by
              unfold bigVal at hbig
              rw [hbid] at hbig
              exact hbig
            have hne : bid ≠ lid := by
              intro hh
              rw [hh, he] at hbe
              exact Option.noConfusion hbe
            dsimp only
            rw [entryLoad_entryStore_ne n.slots (some w) hne, hbe]
        · intro h
          simp at h
      · rw [if_neg (by simp [huo])]
        dsimp only
        refine ⟨?_, ?_, ?_⟩
        · rw [hlv, he]
          simp [huo]
        · intro h
          simp at h
        · intro _ k'
          exact logicalLoad_scoreMiss n k'

theorem casBody_spec (n : RWMap) (k : K) (o w : V) (hKn : KeyOK n k) :
    ((casBody n k (some o) (some w)).2 = true ↔ logicalLoad n k = some o)
  ∧ ((casBody n k (some o) (some w)).2 = true →
      logicalLoad (casBody n k (some o) (some w)).1 k = some w)
  ∧ ((casBody n k (some o) (some w)).2 = false →
      ∀ k', logicalLoad (casBody n k (some o) (some w)).1 k' = logicalLoad n k') := by
  unfold casBody
  cases hb : bigId n k with
  | none =>
    have hbig : bigVal n k = none := by
      unfold bigVal
      rw [hb]
    have hll : logicalLoad n k = littleVal n k := by
      unfold logicalLoad
      rw [hbig]
    rw [hll]
    exact casLittle_spec n k o w hbig
  | some id =>
    dsimp only
    cases he : entryLoad n.slots id with
    | none =>
      have hbig : bigVal n k = none := by
        unfold bigVal
        rw [hb]
        exact he
      have hll : logicalLoad n k = littleVal n k := by
        unfold logicalLoad
        rw [hbig]
      rw [hll]
      exact casLittle_spec n k o w hbig
    | some u =>
      dsimp only
      have hbv : bigVal n k = some u := by
        unfold bigVal
        rw [hb]
        exact he
      have hlog : logicalLoad n k = some u := by
        unfold logicalLoad
        rw [hbv]
      by_cases huo : u = o
      · rw [if_pos (by rw [huo]), entryCAS, if_neg (by simp), he, if_pos (by rw [huo])]
        dsimp only
        refine ⟨?_, ?_, ?_⟩
        · rw [hlog, huo]
          simp
        · intro _
          have hlt : id < n.slots.length := lt_length_of_entryLoad_eq_some he
          unfold logicalLoad
          rw [bigVal_set_slots, hb]
          dsimp only
          rw [entryLoad_entryStore_self, if_pos hlt]
        · intro h
          simp at h
      · rw [if_neg (by simp [huo])]
        -- falls through to the hot table although the stable entry is
        -- populated; by the container invariant the hot entry agrees or
        -- is empty, so the little CAS fails as well
        have hlv : littleVal n k = none ∨ littleVal n k = some u := by
          rcases hKn with h1 | h1 | h1
          · rw [hbv] at h1
            exact absurd h1 (by simp)
          · exact Or.inl h1
          · rw [← h1, hbv]
            exact Or.inr rfl
        have hbig' := hbv
        unfold casLittle
        cases hlid : littleId n k with
        | none =>
          dsimp only
          refine ⟨?_, ?_, ?_⟩
          · rw [hlog]
            simp [huo]
          · intro h
            simp at h
          · intro _ k'
            rfl
        | some lid =>
          dsimp only
          rw [scoreMiss_slots]
          have hlv2 : littleVal n k = entryLoad n.slots lid := by
            unfold littleVal
            rw [hlid]
          cases hel : entryLoad n.slots lid with
          | none =>
            dsimp only
            refine ⟨?_, ?_, ?_⟩
            · rw [hlog]
              simp [huo]
            · intro h
              simp at h
            · intro _ k'
              exact logicalLoad_scoreMiss n k'
          | some u' =>
            have hu' : u' = u := by
              rcases hlv with h1 | h1
              · rw [hlv2, hel] at h1
                exact absurd h1 (by simp)
              · rw [hlv2, hel] at h1
                exact Option.some.inj h1
            dsimp only
            rw [if_neg (by rw [hu']; simp [huo])]
            dsimp only
            refine ⟨?_, ?_, ?_⟩
            · rw [hlog]
              simp [huo]
            · intro h
              simp at h
            · intro _ k'
              exact logicalLoad_scoreMiss n k'

/-- C6: `CompareAndSwap(K, V1, V2)` returns false at once, without any
lock or state change, when V1 or V2 is the absent sentinel (first
conjunct — the result is literally the unchanged input state); otherwise
it succeeds exactly when K's logical value equals V1, on success the
value becomes V2, and on failure the mapping of every key is unchanged.
Stated for a hot table without duplicate keys and keys satisfying the
container invariant. -/
theorem c6_compare_and_swap (m : RWMap) (k : K) (old newv : Option V)
    (hL : nodupL m) (hAll : ∀ k', KeyOK m k') :
    (old = none ∨ newv = none → CompareAndSwap m k old newv = (m, false))
  ∧ (∀ o w, old = some o → newv = some w →
      (((CompareAndSwap m k old newv).2 = true) ↔ logicalLoad m k = some o)
    ∧ ((CompareAndSwap m k old newv).2 = true →
        logicalLoad (CompareAndSwap m k old newv).1 k = some w)
    ∧ ((CompareAndSwap m k old newv).2 = false →
        ∀ k', logicalLoad (CompareAndSwap m k old newv).1 k' = logicalLoad m k')) := by
  constructor
  · intro h
    unfold CompareAndSwap
    rw [if_pos h]
  · intro o w ho hw
    subst ho
    subst hw
    have hguard : ¬((some o : Option V) = none ∨ (some w : Option V) = none) := by
      simp
    have hcas : CompareAndSwap m k (some o) (some w) =
        casBody (checkMerge m) k (some o) (some w) := by
      unfold CompareAndSwap
      rw [if_neg hguard]
    have hCM : ∀ k', logicalLoad (checkMerge m) k' = logicalLoad m k' :=
      fun k' => logicalLoad_checkMerge m k' hL (hAll k')
    have hKn : KeyOK (checkMerge m) k := keyOK_checkMerge k (hAll k)
    obtain ⟨h1, h2, h3⟩ := casBody_spec (checkMerge m) k o w hKn
    rw [hcas]
    refine ⟨?_, h2, ?_⟩
    · rw [h1, hCM k]
    · intro hf k'
      rw [h3 hf k', hCM k']

/-- C6 witness: in the state after `Store(1, 10)` (hot table holds
1 ↦ 10, stable table nil), `CompareAndSwap 1 10 11` succeeds. -/
theorem c6_witness :
    (CompareAndSwap (Store initMap 1 (some 10)) 1 (some 10) (some 11)).2 = true :=
  (((c6_compare_and_swap (Store initMap 1 (some 10)) 1 (some 10) (some 11)
      (by unfold nodupL; decide)
      (fun k' => Or.inl rfl)).2 10 11 rfl rfl).1).mpr (by decide)

/-! ### `Swap` on an absent key -/

theorem swapCreate_none (m : RWMap) (k : K) :
    swapCreate m k none = (m, none, false) := by
  unfold swapCreate
  rw [if_pos rfl]

theorem swapCreate_some_eq (m : RWMap) (k : K) (v : V) :
    swapCreate m k (some v) = (storeCreate m k (some v), some v, false) := by
  unfold swapCreate storeCreate
  rw [if_neg (by simp)]

/-- C10: swapping a non-nil value under a logically absent key inserts
it and reports `(V, false)` — the returned "previous" value is the value
just stored, not the absent sentinel — while `Swap(K, nil)` on an absent
key returns `(nil, false)` and leaves the mapping of every key
unchanged (it only materializes an empty hot table).  Stated for a hot
table without duplicate keys and keys satisfying the container
invariant. -/
theorem c10_swap_absent (m : RWMap) (k : K) (v : V) (hL : nodupL m)
    (hAll : ∀ k', KeyOK m k') (habs : logicalLoad m k = none) :
    (∃ m', Swap m k (some v) = some (m', some v, false) ∧
        logicalLoad m' k = some v)
  ∧ (∃ m'', Swap m k none = some (m'', none, false) ∧
        ∀ k', logicalLoad m'' k' = logicalLoad m k') := by
  have hCM : ∀ k', logicalLoad (checkMerge m) k' = logicalLoad m k' :=
    fun k' => logicalLoad_checkMerge m k' hL (hAll k')
  have habs' : logicalLoad (checkMerge m) k = none := by
    rw [hCM k]
    exact habs
  obtain ⟨hbn, hln⟩ := (logicalLoad_eq_none_iff (checkMerge m) k).mp habs'
  have hred : ∀ w, Swap m k w = swapLittle (checkMerge m) k w := by
    intro w
    show swapBody (checkMerge m) k w = _
    unfold swapBody
    cases hb : bigId (checkMerge m) k with
    | none => rfl
    | some id =>
      dsimp only
      have he : entryLoad (checkMerge m).slots id = none := by
        unfold bigVal at hbn
        rw [hb] at hbn
        exact hbn
      rw [he]
  have hred2 : ∀ w, swapLittle (checkMerge m) k w =
      some (swapCreate (RWMap.mk (checkMerge m).bigMap
        (some ((checkMerge m).littleMap.getD [])) (checkMerge m).slots
        (checkMerge m).littleReads (checkMerge m).shouldMerge) k w) := by
    intro w
    unfold swapLittle
    dsimp only
    have hlid0 : littleId (RWMap.mk (checkMerge m).bigMap
        (some ((checkMerge m).littleMap.getD [])) (checkMerge m).slots
        (checkMerge m).littleReads (checkMerge m).shouldMerge) k =
        littleId (checkMerge m) k := rfl
    rw [hlid0]
    cases hlid : littleId (checkMerge m) k with
    | none => rfl
    | some lid =>
      dsimp only
      have hel : entryLoad (checkMerge m).slots lid = none := by
        unfold littleVal at hln
        rw [hlid] at hln
        exact hln
      rw [hel]
  constructor
  · refine ⟨storeCreate (RWMap.mk (checkMerge m).bigMap
      (some ((checkMerge m).littleMap.getD [])) (checkMerge m).slots
      (checkMerge m).littleReads (checkMerge m).shouldMerge) k (some v), ?_, ?_⟩
    · rw [hred, hred2, swapCreate_some_eq]
    · have hbig' : bigVal (RWMap.mk (checkMerge m).bigMap
          (some ((checkMerge m).littleMap.getD [])) (checkMerge m).slots
          (checkMerge m).littleReads (checkMerge m).shouldMerge) k = none := hbn
      exact logicalLoad_storeCreate _ k v hbig'
  · refine ⟨RWMap.mk (checkMerge m).bigMap
      (some ((checkMerge m).littleMap.getD [])) (checkMerge m).slots
      (checkMerge m).littleReads (checkMerge m).shouldMerge, ?_, ?_⟩
    · rw [hred, hred2, swapCreate_none]
    · intro k'
      have hsame : logicalLoad (RWMap.mk (checkMerge m).bigMap
          (some ((checkMerge m).littleMap.getD [])) (checkMerge m).slots
          (checkMerge m).littleReads (checkMerge m).shouldMerge) k' =
          logicalLoad (checkMerge m) k' := rfl
      rw [hsame, hCM k']

/-- C10 witness: swapping under the absent key 2 in a container whose
stable table holds only key 1. -/
theorem c10_witness :
    (∃ m', Swap (forceMerge (Store initMap 1 (some 10))) 2 (some 7) =
        some (m', some 7, false) ∧ logicalLoad m' 2 = some 7)
  ∧ (∃ m'', Swap (forceMerge (Store initMap 1 (some 10))) 2 none =
        some (m'', none, false) ∧
        ∀ k', logicalLoad m'' k' =
          logicalLoad (forceMerge (Store initMap 1 (some 10))) k') :=
  c10_swap_absent (forceMerge (Store initMap 1 (some 10))) 2 7
    (by unfold nodupL; decide)
    (fun _ => Or.inr (Or.inl rfl))
    (by decide)

/-! ### `Range`: the snapshot and the visiting loop -/

theorem bigSnapStep_alookup_ne (slots : List (Option V)) (c : AList V)
    (p : K × EntryId) {k : K} (h : p.1 ≠ k) :
    alookup (bigSnapStep slots c p) k = alookup c k := by
  unfold bigSnapStep
  cases entryLoad slots p.2 with
  | none => rfl
  | some a => exact alookup_ainsert_ne c a (fun hh => h hh.symm)

theorem littleSnapStep_alookup_ne (slots : List (Option V)) (c : AList V)
    (p : K × EntryId) {k : K} (h : p.1 ≠ k) :
    alookup (littleSnapStep slots c p) k = alookup c k := by
  unfold littleSnapStep
  cases entryLoad slots p.2 with
  | none => exact alookup_aerase_ne c (fun hh => h hh.symm)
  | some a => exact alookup_ainsert_ne c a (fun hh => h hh.symm)

theorem bigSnap_alookup (slots : List (Option V)) (bm : AList EntryId)
    (c : AList V) (k : K) (hnd : (akeys bm).Nodup) :
    alookup (bm.foldl (bigSnapStep slots) c) k =
      match alookup bm k with
      | some id =>
        match entryLoad slots id with
        | some a => some a
        | none => alookup c k
      | none => alookup c k := by
  induction bm generalizing c with
  | nil => rfl
  | cons p rest ih =>
    rw [akeys_cons, List.nodup_cons] at hnd
    rw [List.foldl_cons]
    by_cases hp : p.1 = k
    · have hrest : k ∉ akeys rest := hp ▸ hnd.1
      rw [foldl_alookup_not_mem (bigSnapStep slots)
            (fun acc q hq => bigSnapStep_alookup_ne slots acc q hq) rest
            (bigSnapStep slots c p) hrest]
      have hrest' : alookup rest k = none := (not_mem_akeys_iff rest k).mp hrest
      simp only [alookup, if_pos hp, hrest']
      unfold bigSnapStep
      rw [hp]
      cases he : entryLoad slots p.2 with
      | none => rfl
      | some a => exact alookup_ainsert_self c k a
    · rw [ih (bigSnapStep slots c p) hnd.2]
      simp only [alookup, if_neg hp]
      cases hr : alookup rest k with
      | none => exact bigSnapStep_alookup_ne slots c p hp
      | some id =>
        dsimp only
        cases he : entryLoad slots id with
        | none => exact bigSnapStep_alookup_ne slots c p hp
        | some a => rfl

theorem littleSnap_alookup (slots : List (Option V)) (lm : AList EntryId)
    (c : AList V) (k : K) (hnd : (akeys lm).Nodup) :
    alookup (lm.foldl (littleSnapStep slots) c) k =
      match alookup lm k with
      | some id => entryLoad slots id
      | none => alookup c k := by
  induction lm generalizing c with
  | nil => rfl
  | cons p rest ih =>
    rw [akeys_cons, List.nodup_cons] at hnd
    rw [List.foldl_cons]
    by_cases hp : p.1 = k
    · have hrest : k ∉ akeys rest := hp ▸ hnd.1
      rw [foldl_alookup_not_mem (littleSnapStep slots)
            (fun acc q hq => littleSnapStep_alookup_ne slots acc q hq) rest
            (littleSnapStep slots c p) hrest]
      have hrest' : alookup rest k = none := (not_mem_akeys_iff rest k).mp hrest
      simp only [alookup, if_pos hp, hrest']
      unfold littleSnapStep
      rw [hp]
      cases he : entryLoad slots p.2 with
      | none => exact alookup_aerase_self c k
      | some a => exact alookup_ainsert_self c k a
    · rw [ih (littleSnapStep slots c p) hnd.2]
      simp only [alookup, if_neg hp]
      cases hr : alookup rest k with
      | none => exact littleSnapStep_alookup_ne slots c p hp
      | some id => rfl

theorem nodup_foldl_preserve {β γ : Type} (step : AList β → K × γ → AList β)
    (hstep : ∀ acc p, (akeys acc).Nodup → (akeys (step acc p)).Nodup)
    (l : List (K × γ)) (acc : AList β) (h : (akeys acc).Nodup) :
    (akeys (l.foldl step acc)).Nodup := by
  induction l generalizing acc with
  | nil => exact h
  | cons p rest ih =>
    rw [List.foldl_cons]
    exact ih (step acc p) (hstep acc p h)

theorem nodupB_merge (m : RWMap) (hB : nodupB m) (_hL : nodupL m) :
    nodupB (merge m) := by
  unfold nodupB
  rw [merge_bigMap]
  cases hm : m.littleMap with
  | none => exact hB
  | some lm =>
    dsimp only
    by_cases hlen : 0 < lm.length
    · rw [if_pos hlen, Option.getD_some]
      refine nodup_foldl_preserve (mergeStep m.slots) ?_ lm (m.bigMap.getD []) hB
      intro acc p hacc
      unfold mergeStep
      split
      · cases hb : alookup acc p.1 with
        | none => exact hacc
        | some oid =>
          dsimp only
          by_cases ho : entryLoad m.slots oid = none
          · rw [if_pos ho]
            exact nodup_akeys_aerase p.1 hacc
          · rw [if_neg ho]
            exact hacc
      · exact nodup_akeys_ainsert p.1 p.2 hacc
    · rw [if_neg hlen]
      exact hB

theorem runVisits_sublist (f : K → V → Bool) (l : AList V) :
    (runVisits f l).Sublist l := by
  induction l with
  | nil => exact List.Sublist.refl []
  | cons p rest ih =>
    rw [runVisits]
    by_cases hf : f p.1 p.2
    · rw [if_pos hf]
      exact ih.cons₂ p
    · rw [if_neg hf]
      exact (List.nil_sublist rest).cons₂ p

theorem mem_of_mem_runVisits {f : K → V → Bool} {l : AList V} {x : K × V}
    (h : x ∈ runVisits f l) : x ∈ l :=
  (runVisits_sublist f l).subset h

theorem nodup_runVisits (f : K → V → Bool) {l : AList V}
    (h : (akeys l).Nodup) : (akeys (runVisits f l)).Nodup :=
  h.sublist ((runVisits_sublist f l).map Prod.fst)

theorem runVisits_true (l : AList V) : runVisits (fun _ _ => true) l = l := by
  induction l with
  | nil => rfl
  | cons p rest ih =>
    rw [runVisits, if_pos rfl, ih]

theorem runVisits_dropLast (f : K → V → Bool) (l : AList V) :
    ∀ x ∈ (runVisits f l).dropLast, f x.1 x.2 = true := by
  induction l with
  | nil =>
    intro x hx
    simp [runVisits] at hx
  | cons p rest ih =>
    intro x hx
    rw [runVisits] at hx
    by_cases hf : f p.1 p.2
    · rw [if_pos hf] at hx
      cases hq : runVisits f rest with
      | nil =>
        rw [hq] at hx
        simp at hx
      | cons q t =>
        rw [hq] at hx
        rw [List.dropLast_cons₂] at hx
        rcases List.mem_cons.mp hx with h1 | h1
        · rw [h1]
          exact hf
        · apply ih
          rw [hq]
          exact h1
    · rw [if_neg hf] at hx
      simp at hx

/-- The snapshot built by `Range` (stable fold then hot overlay) looks
up to exactly the logical view, given: stable keys without duplicates,
hot keys without duplicates, at most one populated entry for the key,
and the tombstone condition (an empty hot entry for a key implies the
stable entry is also empty — otherwise the hot tombstone would delete a
live stable value from the snapshot while `Load` still returns it). -/
theorem range_snapshot_lookup (n : RWMap) (k : K)
    (hB : nodupB n) (hL : nodupL n) (hA : AMO n k)
    (hT : ∀ id, littleId n k = some id → entryLoad n.slots id = none →
      bigVal n k = none) :
    alookup (((scoreMiss n).littleMap.getD []).foldl
      (littleSnapStep (scoreMiss n).slots)
      ((n.bigMap.getD []).foldl (bigSnapStep n.slots) [])) k =
    logicalLoad n k := by
  rw [scoreMiss_littleMap, scoreMiss_slots]
  rw [littleSnap_alookup n.slots (n.littleMap.getD []) _ k hL]
  have hlid0 : littleId n k = alookup (n.littleMap.getD []) k := rfl
  cases hlid : alookup (n.littleMap.getD []) k with
  | some id =>
    dsimp only
    have hlv : littleVal n k = entryLoad n.slots id := by
      unfold littleVal
      rw [hlid0, hlid]
    cases he : entryLoad n.slots id with
    | some u =>
      have hbn : bigVal n k = none := by
        rcases hA with h1 | h1
        · exact h1
        · rw [hlv, he] at h1
          exact absurd h1 (by simp)
      unfold logicalLoad
      rw [hbn, hlv, he]
    | none =>
      have hbn : bigVal n k = none := hT id (by rw [hlid0]; exact hlid) he
      unfold logicalLoad
      rw [hbn, hlv, he]
  | none =>
    dsimp only
    rw [bigSnap_alookup n.slots (n.bigMap.getD []) [] k hB]
    have hlv : littleVal n k = none := by
      unfold littleVal
      rw [hlid0, hlid]
    have hbv : bigVal n k = match alookup (n.bigMap.getD []) k with
        | some id => entryLoad n.slots id
        | none => none := rfl
    unfold logicalLoad
    rw [hbv, hlv]
    cases hb : alookup (n.bigMap.getD []) k with
    | none => rfl
    | some id =>
      dsimp only
      cases he : entryLoad n.slots id with
      | none => rfl
      | some a => rfl

/-- C9: `Range`, run with no concurrent operations, visits — via the
caller-supplied predicate `f` — exactly the keys whose logical value is
present, each exactly once with its current value (the value `Load`
returns), visits no absent key (in particular not a key whose stable
entry was emptied with a tombstone recorded in the hot table), and every
visit except possibly the last returned `true`, i.e. no visit follows
the first `false`.  Stated for tables without duplicate keys, keys
satisfying the container invariant, and hot tombstones whose stable
entry is also empty. -/
theorem c9_range_visits (m : RWMap) (f : K → V → Bool)
    (hB : nodupB m) (hL : nodupL m) (hA : ∀ k, AMO m k)
    (hT : ∀ k id, littleId m k = some id → entryLoad m.slots id = none →
      bigVal m k = none) :
    (∀ k v, ((k, v) ∈ (Range m (fun _ _ => true)).2 ↔
        (Load m k).2 = (some v, true)))
  ∧ (∀ p, p ∈ (Range m f).2 → (Load m p.1).2 = (some p.2, true))
  ∧ (akeys (Range m f).2).Nodup
  ∧ (∀ p, p ∈ (Range m f).2.dropLast → f p.1 p.2 = true) := by
  have hBn : nodupB (checkMerge m) := by
    unfold checkMerge
    split
    · exact nodupB_merge m hB hL
    · exact hB
  have hLn : nodupL (checkMerge m) := nodupL_checkMerge m hL
  have hAn : ∀ k, AMO (checkMerge m) k := by
    intro k
    unfold checkMerge
    split
    · exact Or.inr (littleVal_merge m k)
    · exact hA k
  have hTn : ∀ k id, littleId (checkMerge m) k = some id →
      entryLoad (checkMerge m).slots id = none → bigVal (checkMerge m) k = none := by
    intro k id hid he
    revert hid he
    unfold checkMerge
    split
    · intro hid _
      unfold littleId at hid
      rw [merge_littleMap] at hid
      exact Option.noConfusion hid
    · intro hid he
      exact hT k id hid he
  have hkey : ∀ k, alookup (((scoreMiss (checkMerge m)).littleMap.getD []).foldl
      (littleSnapStep (scoreMiss (checkMerge m)).slots)
      (((checkMerge m).bigMap.getD []).foldl (bigSnapStep (checkMerge m).slots) [])) k =
      logicalLoad (checkMerge m) k :=
    fun k => range_snapshot_lookup (checkMerge m) k hBn hLn (hAn k) (hTn k)
  have hnd : (akeys (((scoreMiss (checkMerge m)).littleMap.getD []).foldl
      (littleSnapStep (scoreMiss (checkMerge m)).slots)
      (((checkMerge m).bigMap.getD []).foldl (bigSnapStep (checkMerge m).slots) []))).Nodup := by
    refine nodup_foldl_preserve _ ?_ _ _
      (nodup_foldl_preserve _ ?_ _ _ List.nodup_nil)
    · intro acc p hacc
      unfold littleSnapStep
      cases entryLoad (scoreMiss (checkMerge m)).slots p.2 with
      | none => exact nodup_akeys_aerase p.1 hacc
      | some a => exact nodup_akeys_ainsert p.1 a hacc
    · intro acc p hacc
      unfold bigSnapStep
      cases entryLoad (checkMerge m).slots p.2 with
      | none => exact hacc
      | some a => exact nodup_akeys_ainsert p.1 a hacc
  have hvisit : ∀ g : K → V → Bool, (Range m g).2 =
      runVisits g (((scoreMiss (checkMerge m)).littleMap.getD []).foldl
        (littleSnapStep (scoreMiss (checkMerge m)).slots)
        (((checkMerge m).bigMap.getD []).foldl (bigSnapStep (checkMerge m).slots) [])) :=
    fun g => rfl
  refine ⟨?_, ?_, ?_, ?_⟩
  · intro k v
    rw [hvisit, runVisits_true, Load_snd]
    constructor
    · intro hmem
      have h2 := alookup_eq_some_of_mem hnd hmem
      have h3 : logicalLoad (checkMerge m) k = some v := by
        rw [← hkey k]
        exact h2
      simp [h3]
    · intro heq
      have h1 : logicalLoad (checkMerge m) k = some v := by
        have h2 := congrArg Prod.fst heq
        simpa using h2
      apply mem_of_alookup_eq_some
      rw [hkey k, h1]
  · intro p hp
    rw [hvisit f] at hp
    have h1 := alookup_eq_some_of_mem hnd (mem_of_mem_runVisits hp)
    rw [hkey p.1] at h1
    rw [Load_snd]
    simp [h1]
  · rw [hvisit]
    exact nodup_runVisits f hnd
  · intro p hp
    rw [hvisit f] at hp
    exact runVisits_dropLast f _ p hp


/-- C9 witness: in a container whose stable table holds 1 ↦ 10 after a
merge, `Range` with an always-true visitor visits (1, 10) and `Load 1`
agrees. -/
theorem c9_witness :
    ((1, 10) ∈ (Range (forceMerge (Store initMap 1 (some 10)))
        (fun _ _ => true)).2 ↔
      (Load (forceMerge (Store initMap 1 (some 10))) 1).2 = (some 10, true)) :=
  (c9_range_visits (forceMerge (Store initMap 1 (some 10))) (fun _ _ => true)
    (by unfold nodupB; decide) (by unfold nodupL; decide)
    (fun _ => Or.inr rfl) (fun _ _ h _ => Option.noConfusion h)).1 1 10

end Rwmap
